import Mathlib

/-!
Verification development for the ebook-highlight import and reconciliation
pipeline of the Author-App repository.

The embedding models:
* `src/services/ebookImportService.ts` — `parseKindleClippings` and
  `parseImportText` (the HTML parser relies on the browser `DOMParser` and is
  treated as an opaque collaborator, passed as a function parameter);
* `src/App.tsx` — `handleBulkImport` (the reconciler), `saveNewHighlight`,
  the highlight-deletion handler (`deleteStoredHighlight`) and `deleteBook`.

JavaScript string operations are modelled by `js*` helpers over `List Char`
(`String.data`); they follow the ECMAScript semantics of the operations the
source uses (`split` with a string separator, `split(/\r?\n/)`, `trim`,
`toLowerCase`, `includes`, `startsWith`, `lastIndexOf`, `substring`,
`parseInt` on digit strings, and the regex `/page (\d+)/i`).

External effects are modelled as parameters: the metadata lookup
(`searchForBook`, a network call) is a function `String → Option Book`;
`crypto.randomUUID()` is an identifier supply `Nat → String` consumed by an
explicit counter; wall-clock timestamps (`new Date().toISOString()`) are a
`String` parameter.
-/

namespace AuthorApp

set_option maxRecDepth 40000

/-- Whitespace test used by the model of `String.prototype.trim`
(space, tab, newline, carriage return — the characters appearing in
clippings input). -/
def isWsChar (c : Char) : Bool :=
  c == ' ' || c == '\t' || c == '\n' || c == '\r'

/-- Model of JavaScript `s.trim()`. -/
def jsTrim (s : String) : String :=
  String.mk (((s.data.dropWhile isWsChar).reverse.dropWhile isWsChar).reverse)

/-- Model of JavaScript `s.toLowerCase()` (ASCII case folding). -/
def jsToLower (s : String) : String :=
  String.mk (s.data.map Char.toLower)

/-- Index of the first occurrence of `pat` as a contiguous sublist, if any. -/
def findSubIdx (pat : List Char) : List Char → Option Nat
  | [] => if pat.isEmpty then some 0 else none
  | c :: cs =>
    if pat.isPrefixOf (c :: cs) then some 0
    else (findSubIdx pat cs).map (· + 1)

/-- Model of JavaScript `s.includes(sub)`. -/
def jsIncludes (s : String) (sub : String) : Bool :=
  (findSubIdx sub.data s.data).isSome

/-- Model of JavaScript `s.startsWith(p)`. -/
def jsStartsWith (s : String) (p : String) : Bool :=
  p.data.isPrefixOf s.data

/-- Helper for `jsLastIndexOf`: tracks the index of the last match seen. -/
def lastIdxAux (c : Char) : List Char → Nat → Option Nat → Option Nat
  | [], _, best => best
  | x :: xs, i, best => lastIdxAux c xs (i + 1) (if x == c then some i else best)

/-- Model of JavaScript `s.lastIndexOf(c)` for a single character
(`none` models the return value `-1`). -/
def jsLastIndexOf (c : Char) (s : String) : Option Nat :=
  lastIdxAux c s.data 0 none

/-- Model of JavaScript `s.substring(a, b)`: indices are clamped to the
string length and swapped when `a > b`. -/
def jsSubstring (s : String) (a b : Nat) : String :=
  let n := s.data.length
  let lo := min (min a n) (min b n)
  let hi := max (min a n) (min b n)
  String.mk ((s.data.drop lo).take (hi - lo))

/-- Helper for `jsSplit`. The `fuel` argument makes the recursion structural;
`jsSplit` supplies `fuel = length + 1`, which is sufficient because every
recursive call consumes at least one character. -/
def jsSplitAux (sep : List Char) : Nat → List Char → List Char → List (List Char)
  | 0, l, acc => [acc.reverse ++ l]
  | _ + 1, [], acc => [acc.reverse]
  | fuel + 1, c :: cs, acc =>
    if sep.isPrefixOf (c :: cs) then
      acc.reverse :: jsSplitAux sep fuel (cs.drop (sep.length - 1)) []
    else
      jsSplitAux sep fuel cs (c :: acc)

/-- Model of JavaScript `s.split(sep)` for a non-empty string separator
(leftmost, non-overlapping matches; empty leading/trailing pieces kept). -/
def jsSplit (sep : String) (s : String) : List String :=
  if sep.data.isEmpty then [s]
  else (jsSplitAux sep.data (s.data.length + 1) s.data []).map String.mk

/-- Helper for `jsSplitLines`: splits on `\r\n` or `\n` (the regex
`/\r?\n/` used by the clippings parser). -/
def splitLinesAux : List Char → List Char → List (List Char)
  | [], acc => [acc.reverse]
  | '\r' :: '\n' :: cs, acc => acc.reverse :: splitLinesAux cs []
  | '\n' :: cs, acc => acc.reverse :: splitLinesAux cs []
  | c :: cs, acc => splitLinesAux cs (c :: acc)

/-- Model of JavaScript `s.split(/\r?\n/)`. -/
def jsSplitLines (s : String) : List String :=
  (splitLinesAux s.data []).map String.mk

/-- Reference single-character splitter, used to state the amended form of
the author-normalization rule independently of the fuel-based `jsSplit`. -/
def splitChar (sep : Char) : List Char → List (List Char)
  | [] => [[]]
  | c :: cs =>
    if c == sep then [] :: splitChar sep cs
    else
      match splitChar sep cs with
      | [] => [[c]]
      | p :: ps => (c :: p) :: ps

/-- Decimal digit test (the regex class `\d`). -/
def isDigitChar (c : Char) : Bool :=
  '0' ≤ c && c ≤ '9'

/-- Longest leading run of decimal digits, and the remainder. -/
def takeDigits : List Char → List Char × List Char
  | [] => ([], [])
  | c :: cs =>
    if isDigitChar c then
      let (ds, r) := takeDigits cs
      (c :: ds, r)
    else ([], c :: cs)

/-- Numeric value of a digit string. -/
def digitsToNat (l : List Char) : Nat :=
  l.foldl (fun n c => n * 10 + (c.toNat - '0'.toNat)) 0

/-- Model of JavaScript `parseInt` on the strings this program feeds it
(digit runs): the value of the longest leading digit run, `none` for `NaN`. -/
def jsParseIntNat (s : String) : Option Nat :=
  let ds := (takeDigits s.data).1
  if ds.isEmpty then none else some (digitsToNat ds)

/-- Match of the regex `/page (\d+)/i` at the head of the list: the literal
word `page` (case-insensitive), a space, then the captured digit run. -/
def pageAt : List Char → Option (List Char)
  | p :: a :: g :: e :: ' ' :: rest =>
    if p.toLower == 'p' && a.toLower == 'a' && g.toLower == 'g' && e.toLower == 'e' then
      match rest with
      | d :: _ => if isDigitChar d then some (takeDigits rest).1 else none
      | [] => none
    else none
  | _ => none

/-- First match of `/page (\d+)/i`, scanning start positions left to right
(`metaLine.match(...)` in `parseKindleClippings`). -/
def findPage : List Char → Option String
  | [] => none
  | c :: cs =>
    match pageAt (c :: cs) with
    | some ds => some (String.mk ds)
    | none => findPage cs

/-- Parsed highlight produced by the format parser
(`ImportedBookData.highlights` entries in `ebookImportService.ts`; the
`location` field of the TypeScript interface is never written by either
parser and is omitted). -/
structure ParsedHighlight where
  text : String
  page : Option String
  createdAt : String
deriving Repr, DecidableEq

/-- Parsed book (`ImportedBookData` in `ebookImportService.ts`). -/
structure ImportedBookData where
  title : String
  author : String
  highlights : List ParsedHighlight
deriving Repr, DecidableEq

/-- Data extracted from one retained clippings entry (one delimiter-separated
section): its grouping key, title, author and highlight. -/
structure ClipEntry where
  key : String
  title : String
  author : String
  hl : ParsedHighlight
deriving Repr, DecidableEq

/-- Author normalization inside `parseKindleClippings`
(`ebookImportService.ts` lines 31‑37): split the raw author field on every
comma, trim the parts, and reorder only when the split yields exactly two
parts. -/
def normalizeAuthor (rawAuthor : String) : String :=
  if jsIncludes rawAuthor "," then
    let parts := (jsSplit "," rawAuthor).map jsTrim
    if parts.length == 2 then (parts.getD 1 "") ++ " " ++ (parts.getD 0 "") else rawAuthor
  else rawAuthor

/-- Title-line processing of `parseKindleClippings`
(`ebookImportService.ts` lines 23‑38): locate the last `(`; if it exists at a
positive index, the part before it (trimmed) is the title and the part
between it and the final character (trimmed, then normalized) is the author;
otherwise the whole line is the title and the author is `"Unknown Author"`. -/
def parseTitleAuthor (titleLine : String) : String × String :=
  match jsLastIndexOf '(' titleLine with
  | some i =>
    if 0 < i then
      (jsTrim (jsSubstring titleLine 0 i),
       normalizeAuthor (jsTrim (jsSubstring titleLine (i + 1) (titleLine.data.length - 1))))
    else (titleLine, "Unknown Author")
  | none => (titleLine, "Unknown Author")

/-- Processing of one clippings section (the body of the `sections.forEach`
in `parseKindleClippings`, `ebookImportService.ts` lines 20‑51): `none` when
the section is skipped (fewer than two lines) or discarded (empty body, or
body starting with "bookmark" case-insensitively).  The highlight's
`createdAt` is stamped afterwards (see `parseKindleClippings`), so it is left
empty here. -/
def entryOf (sectionStr : String) : Option ClipEntry :=
  match jsSplitLines (jsTrim sectionStr) with
  | l0 :: l1 :: rest =>
    let titleLine := jsTrim l0
    let ta := parseTitleAuthor titleLine
    let metaLine := jsTrim l1
    let page := findPage metaLine.data
    let content := jsTrim (String.intercalate "\n" (rest.dropWhile (fun l => jsTrim l == "")))
    if content == "" || jsStartsWith (jsToLower content) "bookmark" then none
    else
      some { key := jsToLower (ta.1 ++ "-" ++ ta.2), title := ta.1, author := ta.2,
             hl := { text := content, page := page, createdAt := "" } }
  | _ => none

/-- Sections of a clippings text: split on the ten-equals separator, keeping
only sections with non-whitespace content (`ebookImportService.ts` line 17). -/
def clipSections (text : String) : List String :=
  (jsSplit "==========" text).filter (fun s => 0 < (jsTrim s).data.length)

/-- Retained entries of a clippings text, in encounter order. -/
def clipEntries (text : String) : List ClipEntry :=
  (clipSections text).filterMap entryOf

/-- Insertion of one retained entry into the book map (the grouping steps of
`parseKindleClippings`, `ebookImportService.ts` lines 53‑64).  The JavaScript
`Map` preserves insertion order, so it is modelled as an association list:
`set` of a fresh key appends, and the `highlights.push` updates in place. -/
def insertEntry (m : List (String × ImportedBookData)) (e : ClipEntry) :
    List (String × ImportedBookData) :=
  if m.any (fun p => p.1 == e.key) then
    m.map (fun p =>
      if p.1 == e.key then (p.1, { p.2 with highlights := p.2.highlights ++ [e.hl] }) else p)
  else m ++ [(e.key, { title := e.title, author := e.author, highlights := [e.hl] })]

/-- Grouped books of a clippings text, before timestamping. -/
def clipBooks (text : String) : List ImportedBookData :=
  ((clipEntries text).foldl insertEntry []).map (·.2)

/-- Stamp of the parse-time wall clock onto a parsed highlight
(`createdAt: new Date().toISOString()` at `ebookImportService.ts` line 62). -/
def stampHighlight (now : String) (h : ParsedHighlight) : ParsedHighlight :=
  { h with createdAt := now }

/-- Stamp of the parse-time wall clock onto every highlight of a parsed book. -/
def stampBook (now : String) (b : ImportedBookData) : ImportedBookData :=
  { b with highlights := b.highlights.map (stampHighlight now) }

/-- Model of `parseKindleClippings` (`ebookImportService.ts` lines 16‑66).
The wall-clock ISO timestamp written into each highlight's `createdAt` is the
parameter `now`; the parser is otherwise independent of the clock. -/
def parseKindleClippings (now : String) (text : String) : List ImportedBookData :=
  (clipBooks text).map (stampBook now)

/-- Model of `parseImportText` (`ebookImportService.ts` lines 115‑125).
`htmlParser` stands for `parseHtmlHighlights`, which is built on the
browser's `DOMParser` and is treated as an opaque collaborator. -/
def parseImportText (htmlParser : String → List ImportedBookData) (now : String)
    (text : String) : List ImportedBookData :=
  let trimmed := jsTrim text
  if jsIncludes trimmed "==========" then parseKindleClippings now trimmed
  else if jsStartsWith trimmed "<" || jsIncludes trimmed "<!DOCTYPE html>" ||
      jsIncludes trimmed "<html>" then
    htmlParser trimmed
  else []

/-- Persisted book entity (`src/types.ts`; the optional `lastRead` field is
never set by the operations modelled here and is omitted). -/
structure Book where
  id : String
  title : String
  author : String
  coverUrl : String
  totalHighlights : Nat
deriving Repr, DecidableEq, Inhabited

/-- Persisted thought entity (`src/types.ts`). -/
structure Thought where
  id : String
  text : String
  createdAt : String
deriving Repr, DecidableEq

/-- Persisted highlight entity (`src/types.ts`; `source` is the literal
string `"scanned"` or `"digital"`, and the optional `imageUrl` is unused by
the operations modelled here). -/
structure Highlight where
  id : String
  bookId : String
  text : String
  pageNumber : Option Nat
  thoughts : List Thought
  createdAt : String
  source : String
deriving Repr, DecidableEq

/-- One entry of the import summary's `updates` list (`App.tsx` line 519). -/
structure UpdateEntry where
  title : String
  newCount : Nat
deriving Repr, DecidableEq

/-- Import summary produced by `handleBulkImport` (`App.tsx` lines 516‑520). -/
structure ImportSummary where
  totalBooksProcessed : Nat
  totalHighlightsAdded : Nat
  updates : List UpdateEntry
deriving Repr, DecidableEq

/-- Hexadecimal digit for percent-encoding. -/
def hexDigit (n : Nat) : Char :=
  if n < 10 then Char.ofNat (48 + n) else Char.ofNat (55 + n)

/-- Unreserved bytes of `encodeURIComponent`: ASCII letters, digits, and
`- _ . ! ~ * ( )` together with the apostrophe (byte 39). -/
def unreservedByte (b : Nat) : Bool :=
  (48 ≤ b && b ≤ 57) || (65 ≤ b && b ≤ 90) || (97 ≤ b && b ≤ 122) ||
  b == 45 || b == 95 || b == 46 || b == 33 || b == 126 || b == 42 ||
  b == 39 || b == 40 || b == 41

/-- Model of JavaScript `encodeURIComponent`: UTF-8 bytes outside the
unreserved set are percent-encoded. -/
def encodeURIComponent (s : String) : String :=
  String.mk (s.toUTF8.toList.foldr
    (fun b acc =>
      if unreservedByte b.toNat then Char.ofNat b.toNat :: acc
      else '%' :: hexDigit (b.toNat / 16) :: hexDigit (b.toNat % 16) :: acc)
    [])

/-- Placeholder cover URL used for synthesized books
(`App.tsx` line 645). -/
def placeholderCover (title : String) : String :=
  "https://placehold.co/400x600?text=" ++ encodeURIComponent title

/-- Index of the first element satisfying `p` (the semantics of JavaScript
`Array.prototype.find`, tracked by index so that the in-place mutation of the
found object can be modelled as a functional update). -/
def findFirstIdx (p : α → Bool) : List α → Option Nat
  | [] => none
  | a :: l => if p a then some 0 else (findFirstIdx p l).map (· + 1)

/-- Merge-target search of the reconciler (`App.tsx` line 640): the first
stored book whose title equals the parsed title case-insensitively.  The
author plays no role. -/
def findMergeIdx (books : List Book) (title : String) : Option Nat :=
  findFirstIdx (fun b => jsToLower b.title == jsToLower title) books

/-- State threaded through the reconciler's inner highlight loop:
the growing highlight store, the per-book count of new highlights
(`newHighlightsInBook`), and the identifier-supply counter. -/
structure AddState where
  highlights : List Highlight
  cnt : Nat
  ctr : Nat
deriving Repr, DecidableEq

/-- One step of the reconciler's highlight loop (`App.tsx` lines 649‑665):
skip the parsed highlight when some stored highlight of the same book has
exactly equal text, otherwise append a fresh `"digital"` highlight. -/
def addOneHighlight (ids : Nat → String) (now : String) (bookId : String)
    (st : AddState) (h : ParsedHighlight) : AddState :=
  if st.highlights.any (fun eh => eh.bookId == bookId && eh.text == h.text) then st
  else
    { highlights := st.highlights ++
        [{ id := ids st.ctr, bookId := bookId, text := h.text,
           pageNumber := h.page.bind jsParseIntNat, thoughts := [],
           createdAt := now, source := "digital" }],
      cnt := st.cnt + 1, ctr := st.ctr + 1 }

/-- State threaded through the reconciler's book loop (`App.tsx`
lines 634‑670): the book list, the highlight store, `addedCount`, the
`updates` list and the identifier-supply counter. -/
structure ReconcileState where
  books : List Book
  highlights : List Highlight
  addedCount : Nat
  updates : List UpdateEntry
  ctr : Nat
deriving Repr, DecidableEq

/-- One iteration of the reconciler's book loop (`App.tsx` lines 639‑670):
find a stored book by case-insensitive title; if none, consult the metadata
lookup and on failure synthesize a placeholder book, inserting the new book
at the front; then run the highlight loop against that book's id, add the new
count to the book's `totalHighlights`, and record an `updates` entry when at
least one highlight was added. -/
def stepBook (lookup : String → Option Book) (ids : Nat → String) (now : String)
    (st : ReconcileState) (iB : ImportedBookData) : ReconcileState :=
  match findMergeIdx st.books iB.title with
  | some i =>
    let b := st.books.getD i default
    let a := iB.highlights.foldl (addOneHighlight ids now b.id) ⟨st.highlights, 0, st.ctr⟩
    { books := st.books.set i { b with totalHighlights := b.totalHighlights + a.cnt },
      highlights := a.highlights,
      addedCount := st.addedCount + a.cnt,
      updates := if 0 < a.cnt then st.updates ++ [⟨iB.title, a.cnt⟩] else st.updates,
      ctr := a.ctr }
  | none =>
    let created :=
      match lookup (iB.title ++ " " ++ iB.author) with
      | some m => (m, st.ctr)
      | none =>
        ({ id := ids st.ctr, title := iB.title, author := iB.author,
           coverUrl := placeholderCover iB.title, totalHighlights := 0 }, st.ctr + 1)
    let a := iB.highlights.foldl (addOneHighlight ids now created.1.id)
      ⟨st.highlights, 0, created.2⟩
    { books := { created.1 with totalHighlights := created.1.totalHighlights + a.cnt } :: st.books,
      highlights := a.highlights,
      addedCount := st.addedCount + a.cnt,
      updates := if 0 < a.cnt then st.updates ++ [⟨iB.title, a.cnt⟩] else st.updates,
      ctr := a.ctr }

/-- The reconciliation pass of `handleBulkImport` (`App.tsx` lines 634‑680):
fold the book loop over the parsed books and assemble the summary. -/
def runReconcile (lookup : String → Option Book) (ids : Nat → String) (now : String)
    (parsed : List ImportedBookData) (books : List Book) (highlights : List Highlight) :
    List Book × List Highlight × ImportSummary :=
  let st := parsed.foldl (stepBook lookup ids now) ⟨books, highlights, 0, [], 0⟩
  (st.books, st.highlights,
   { totalBooksProcessed := parsed.length, totalHighlightsAdded := st.addedCount,
     updates := st.updates })

/-- Model of `handleBulkImport` (`App.tsx` lines 630‑681): parse, throw when
nothing was parsed, otherwise reconcile.  The thrown `Error` is modelled as
`Except.error` with its message. -/
def handleBulkImport (htmlParser : String → List ImportedBookData)
    (lookup : String → Option Book) (ids : Nat → String) (now : String)
    (importText : String) (books : List Book) (highlights : List Highlight) :
    Except String (List Book × List Highlight × ImportSummary) :=
  let parsed := parseImportText htmlParser now importText
  if parsed.isEmpty then Except.error "No highlights detected in that file."
  else Except.ok (runReconcile lookup ids now parsed books highlights)

/-- Model of the highlight-deletion operation: `deleteStoredHighlight`
(`App.tsx` lines 90‑95) invoked from the thread view's `onDelete`
(`App.tsx` line 991).  The stored highlight is removed; the book list is not
touched. -/
def deleteHighlightOp (highlightId : String) (books : List Book)
    (highlights : List Highlight) : List Book × List Highlight :=
  (books, highlights.filter (fun h => h.id != highlightId))

/-- Model of `saveNewHighlight` (`App.tsx` lines 845‑863) for a book with id
`bookId`: append a `"scanned"` highlight built from the drafts and increment
the matching stored book's `totalHighlights`.  `idH`/`idT` model the two
`crypto.randomUUID()` calls; the page is `parseInt(...) || undefined`, so a
non-numeric or zero draft page yields `none`. -/
def saveNewHighlightOp (idH idT now bookId draftText draftPage draftNote : String)
    (books : List Book) (highlights : List Highlight) : List Book × List Highlight :=
  if jsTrim draftText == "" then (books, highlights)
  else
    let newH : Highlight :=
      { id := idH, bookId := bookId, text := draftText,
        pageNumber := (jsParseIntNat draftPage).bind (fun n => if n == 0 then none else some n),
        thoughts := if draftNote == "" then [] else [{ id := idT, text := draftNote, createdAt := now }],
        createdAt := now, source := "scanned" }
    let books2 :=
      match findFirstIdx (fun b => b.id == bookId) books with
      | some i =>
        books.set i
          (let b := books.getD i default; { b with totalHighlights := b.totalHighlights + 1 })
      | none => books
    (books2, highlights ++ [newH])

/-- Model of `deleteBook` (`App.tsx` lines 878‑886): remove the book and all
highlights referencing it. -/
def deleteBookOp (bookId : String) (books : List Book) (highlights : List Highlight) :
    List Book × List Highlight :=
  (books.filter (fun b => b.id != bookId), highlights.filter (fun h => h.bookId != bookId))

/-- The `totalHighlights` bookkeeping invariant stated by the data model:
every stored book's counter equals the number of stored highlights whose
`bookId` is that book's id. -/
def countsConsistent (books : List Book) (highlights : List Highlight) : Prop :=
  ∀ b ∈ books, b.totalHighlights = (highlights.filter (fun h => h.bookId == b.id)).length

/-- Author rule exactly as the claim states it: split the raw field into two
parts at the FIRST comma, trim both, and reorder as
`"<part after comma> <part before comma>"`; without a comma the raw string is
kept. -/
def firstCommaReorder (raw : String) : String :=
  match findSubIdx [','] raw.data with
  | some i =>
    jsTrim (String.mk (raw.data.drop (i + 1))) ++ " " ++ jsTrim (String.mk (raw.data.take i))
  | none => raw

/-- Author rule as amended: split the raw field on EVERY comma, trim the
parts; when that yields exactly two parts reorder them, otherwise keep the
raw string (which also covers the comma-free case). -/
def amendedAuthorOf (raw : String) : String :=
  let parts := (splitChar ',' raw.data).map (fun cs => jsTrim (String.mk cs))
  if parts.length = 2 then (parts.getD 1 "") ++ " " ++ (parts.getD 0 "") else raw

/-- Canonical grouping of retained entries, stated the way the spec describes
it: books in first-encounter order of their key, each carrying the highlights
of all entries with that key in encounter order. -/
def canonGroupKeyed : List ClipEntry → List (String × ImportedBookData)
  | [] => []
  | e :: es =>
    (e.key,
      { title := e.title, author := e.author,
        highlights := e.hl :: (es.filter (fun x => x.key == e.key)).map (·.hl) }) ::
    canonGroupKeyed (es.filter (fun x => x.key != e.key))
termination_by l => l.length
decreasing_by
  simp only [List.length_cons]
  exact Nat.lt_succ_of_le (List.length_filter_le _ _)

/-- Book accumulator after absorbing the highlights that a list of later
entries contributes to its key. -/
def appendFrom (es : List ClipEntry) (p : String × ImportedBookData) :
    String × ImportedBookData :=
  (p.1, { p.2 with highlights := p.2.highlights ++ (es.filter (fun x => x.key == p.1)).map (·.hl) })

/-- Erasure of the `totalHighlights` counter, used to state that
reconciliation changes nothing else on pre-existing books. -/
def zeroCount (b : Book) : Book :=
  { b with totalHighlights := 0 }

/-- A parsed book is covered by a library state when the merge-target search
finds a book, and every parsed highlight's text is already stored under that
book's id. -/
def CoveredBook (books : List Book) (highlights : List Highlight)
    (iB : ImportedBookData) : Prop :=
  ∃ i b, findMergeIdx books iB.title = some i ∧ books.getD i default = b ∧ i < books.length ∧
    ∀ h ∈ iB.highlights, ∃ eh ∈ highlights, eh.bookId = b.id ∧ eh.text = h.text

/-- The metadata lookup is title-preserving for a parsed-book list when every
book it returns for one of their queries keeps the queried title up to case. -/
def TitlePreserving (lookup : String → Option Book) (parsed : List ImportedBookData) : Prop :=
  ∀ iB ∈ parsed, ∀ b, lookup (iB.title ++ " " ++ iB.author) = some b →
    jsToLower b.title = jsToLower iB.title

/-- End-to-end scenario input from the spec: two Moby Dick highlights. -/
def mobyText : String :=
  "Moby Dick (Melville, Herman)\n- Your Highlight on page 10\n\nCall me Ishmael.\n==========\nMoby Dick (Melville, Herman)\n- Your Highlight on page 20\n\nIt is a way I have.\n=========="

/-- Identifier supply used for concrete runs. -/
def seqIds : Nat → String := fun n => "id-" ++ toString n

/-- Clippings text used in the idempotence counterexample: two entries with
the same title `A` but different authors. -/
def cexText : String :=
  "A (x)\n- m\n\nt1\n==========\nA (y)\n- m\n\nt2\n=========="

/-- Deterministic metadata lookup used in the idempotence counterexample: the
query for author `x` returns a book whose title `Z` differs from the parsed
title `A`; every other query fails. -/
def cexLookup : String → Option Book := fun q =>
  if q == "A x" then
    some { id := "m1", title := "Z", author := "ZA", coverUrl := "zc", totalHighlights := 0 }
  else none

/-- Identifier supply used in the idempotence counterexample. -/
def cexIds : Nat → String := fun n => "u" ++ toString n

/-- Library produced by the first counterexample import run. -/
def cexBooks1 : List Book :=
  [{ id := "u1", title := "A", author := "y", coverUrl := placeholderCover "A",
     totalHighlights := 1 },
   { id := "m1", title := "Z", author := "ZA", coverUrl := "zc", totalHighlights := 1 }]

/-- Highlight store produced by the first counterexample import run. -/
def cexHls1 : List Highlight :=
  [{ id := "u0", bookId := "m1", text := "t1", pageNumber := none, thoughts := [],
     createdAt := "n1", source := "digital" },
   { id := "u2", bookId := "u1", text := "t2", pageNumber := none, thoughts := [],
     createdAt := "n1", source := "digital" }]

/-- Concrete one-book library used for the counter-invariant failing input. -/
def c2Book : Book :=
  { id := "b1", title := "T", author := "A", coverUrl := "c", totalHighlights := 1 }

/-- The single stored highlight of `c2Book`. -/
def c2Highlight : Highlight :=
  { id := "h1", bookId := "b1", text := "x", pageNumber := none, thoughts := [],
    createdAt := "t", source := "scanned" }

/-- Library produced by importing `mobyText` into an empty library with a
failing metadata lookup and the `seqIds` identifier supply. -/
def mobyBooks1 : List Book :=
  [{ id := "id-0", title := "Moby Dick", author := "Herman Melville",
     coverUrl := placeholderCover "Moby Dick", totalHighlights := 2 }]

/-- Highlight store produced by that same import run. -/
def mobyHls1 : List Highlight :=
  [{ id := "id-1", bookId := "id-0", text := "Call me Ishmael.", pageNumber := some 10,
     thoughts := [], createdAt := "now", source := "digital" },
   { id := "id-2", bookId := "id-0", text := "It is a way I have.", pageNumber := some 20,
     thoughts := [], createdAt := "now", source := "digital" }]

/-- Summary produced by that same import run. -/
def mobySummary1 : ImportSummary :=
  { totalBooksProcessed := 1, totalHighlightsAdded := 2,
    updates := [{ title := "Moby Dick", newCount := 2 }] }

/-! ## General lemmas -/

theorem splitChar_ne_nil (sep : Char) (l : List Char) : splitChar sep l ≠ [] := by
  cases l with
  | nil => simp [splitChar]
  | cons c cs =>
    simp only [splitChar]
    by_cases h : (c == sep) = true
    · simp [h]
    · simp only [h, if_false, Bool.false_eq_true]
      cases splitChar sep cs <;> simp

theorem jsSplitAux_comma (l : List Char) : ∀ (fuel : Nat) (acc : List Char), l.length < fuel →
    jsSplitAux [','] fuel l acc =
      match splitChar ',' l with
      | [] => [acc.reverse]
      | p :: ps => (acc.reverse ++ p) :: ps := by
  induction l with
  | nil =>
    intro fuel acc h
    match fuel with
    | f + 1 => simp [jsSplitAux, splitChar]
  | cons c cs ih =>
    intro fuel acc h
    match fuel with
    | f + 1 =>
      have hcs : cs.length < f := by
        simpa [Nat.succ_lt_succ_iff] using h
      simp only [jsSplitAux]
      by_cases hc : c = ','
      · subst hc
        have hpre : [','].isPrefixOf (',' :: cs) = true := by
          simp [List.isPrefixOf]
        rw [if_pos hpre]
        simp only [List.length_cons, List.length_nil, Nat.zero_add]
        rw [show (1 - 1 : Nat) = 0 from rfl, List.drop_zero]
        rw [ih f [] hcs]
        obtain ⟨p, ps, hsp⟩ : ∃ p ps, splitChar ',' cs = p :: ps := by
          cases hx : splitChar ',' cs with
          | nil => exact absurd hx (splitChar_ne_nil _ _)
          | cons p ps => exact ⟨p, ps, rfl⟩
        simp [splitChar, hsp]
      · have hpre : [','].isPrefixOf (c :: cs) = false := by
          simp [List.isPrefixOf]
          intro h'
          exact absurd h'.symm hc
        rw [if_neg (by simp [hpre])]
        rw [ih f (c :: acc) hcs]
        obtain ⟨p, ps, hsp⟩ : ∃ p ps, splitChar ',' cs = p :: ps := by
          cases hx : splitChar ',' cs with
          | nil => exact absurd hx (splitChar_ne_nil _ _)
          | cons p ps => exact ⟨p, ps, rfl⟩
        have hstep : splitChar ',' (c :: cs) = (c :: p) :: ps := by
          simp only [splitChar]
          rw [if_neg (by simp [hc])]
          rw [hsp]
        rw [hsp, hstep]
        simp

theorem jsSplit_comma (raw : String) :
    jsSplit "," raw = (splitChar ',' raw.data).map String.mk := by
  have hne : (("," : String).data.isEmpty) = false := by decide
  have hd : ("," : String).data = [','] := by decide
  simp only [jsSplit, hne, Bool.false_eq_true, if_false, hd]
  rw [jsSplitAux_comma raw.data (raw.data.length + 1) [] (Nat.lt_succ_self _)]
  obtain ⟨p, ps, hsp⟩ : ∃ p ps, splitChar ',' raw.data = p :: ps := by
    cases hx : splitChar ',' raw.data with
    | nil => exact absurd hx (splitChar_ne_nil _ _)
    | cons p ps => exact ⟨p, ps, rfl⟩
  rw [hsp]
  simp

theorem findSubIdx_single_none {c : Char} : ∀ {l : List Char},
    findSubIdx [c] l = none ↔ ∀ x ∈ l, ¬ x = c := by
  intro l
  induction l with
  | nil => simp [findSubIdx]
  | cons y ys ih =>
    simp only [findSubIdx]
    by_cases h : c = y
    · subst h
      simp [List.isPrefixOf]
    · have hpre : [c].isPrefixOf (y :: ys) = false := by
        simp [List.isPrefixOf]
        intro h'
        exact absurd h' h
      simp only [hpre, Bool.false_eq_true, if_false, Option.map_eq_none']
      rw [ih]
      have hyc : ¬ y = c := fun he => h he.symm
      simp [List.mem_cons, forall_eq_or_imp, hyc]

theorem no_comma_splitChar : ∀ {l : List Char}, (∀ x ∈ l, ¬ x = ',') →
    splitChar ',' l = [l] := by
  intro l
  induction l with
  | nil => simp [splitChar]
  | cons c cs ih =>
    intro h
    simp only [splitChar]
    rw [if_neg (by simp; exact h c (by simp))]
    rw [ih (fun x hx => h x (List.mem_cons_of_mem _ hx))]

/-- Claim C4 as amended: the parser's author normalization splits the raw
author field on every comma (trimming the parts), reorders as
"second first" exactly when the split yields two parts — equivalently, when
the field contains exactly one comma — and otherwise keeps the raw string
unmodified; a comma-free field is used as-is. -/
theorem C4_amended (raw : String) : normalizeAuthor raw = amendedAuthorOf raw := by
  unfold normalizeAuthor amendedAuthorOf
  by_cases h : jsIncludes raw "," = true
  · rw [if_pos h]
    rw [jsSplit_comma]
    simp only [List.map_map]
    have hfun : (jsTrim ∘ String.mk) = (fun cs : List Char => jsTrim (String.mk cs)) := rfl
    rw [hfun]
    by_cases h2 : ((splitChar ',' raw.data).map (fun cs => jsTrim (String.mk cs))).length = 2
    · rw [if_pos (by simpa using h2), if_pos h2]
    · rw [if_neg (by simpa using h2), if_neg h2]
  · rw [if_neg h]
    have hnone : findSubIdx (("," : String).data) raw.data = none := by
      unfold jsIncludes at h
      cases hx : findSubIdx (("," : String).data) raw.data with
      | none => rfl
      | some i => rw [hx] at h; simp at h
    have hd : (("," : String).data) = [','] := by decide
    rw [hd] at hnone
    have hnc := findSubIdx_single_none.1 hnone
    have hsp := no_comma_splitChar hnc
    rw [hsp]
    simp

theorem canonGroupKeyed_cons (e : ClipEntry) (es : List ClipEntry) :
    canonGroupKeyed (e :: es) =
      (e.key, { title := e.title, author := e.author,
                highlights := e.hl :: (es.filter (fun x => x.key == e.key)).map (·.hl) }) ::
      canonGroupKeyed (es.filter (fun x => x.key != e.key)) := by
  rw [canonGroupKeyed]

theorem appendFrom_nil (p : String × ImportedBookData) : appendFrom [] p = p := by
  simp [appendFrom]

theorem bne_symm_str (a b : String) : (a != b) = (b != a) := by
  by_cases h : a = b
  · subst h; rfl
  · have h1 : (a == b) = false := by simp [h]
    have h2 : (b == a) = false := by simp [Ne.symm h]
    simp [bne, h1, h2]

theorem insertEntry_pos (m : List (String × ImportedBookData)) (e : ClipEntry)
    (h : m.any (fun p => p.1 == e.key) = true) :
    insertEntry m e = m.map (fun p => if p.1 == e.key then
      (p.1, { p.2 with highlights := p.2.highlights ++ [e.hl] }) else p) := by
  simp [insertEntry, h]

theorem insertEntry_neg (m : List (String × ImportedBookData)) (e : ClipEntry)
    (h : m.any (fun p => p.1 == e.key) = false) :
    insertEntry m e =
      m ++ [(e.key, { title := e.title, author := e.author, highlights := [e.hl] })] := by
  simp [insertEntry, h]

theorem foldl_insertEntry_eq (es : List ClipEntry) :
    ∀ m : List (String × ImportedBookData),
      es.foldl insertEntry m =
        m.map (appendFrom es) ++
          canonGroupKeyed (es.filter (fun x => m.all (fun p => p.1 != x.key))) := by
  induction es with
  | nil =>
    intro m
    have hm : m.map (appendFrom []) = m := by
      rw [show appendFrom ([] : List ClipEntry) = id from funext appendFrom_nil, List.map_id]
    simp [canonGroupKeyed, hm]
  | cons e es ih =>
    intro m
    rw [List.foldl_cons, ih (insertEntry m e)]
    by_cases hmem : m.any (fun p => p.1 == e.key) = true
    · rw [insertEntry_pos m e hmem]
      have hA : ∀ x : ClipEntry,
          ((m.map (fun p => if p.1 == e.key then
              (p.1, { p.2 with highlights := p.2.highlights ++ [e.hl] }) else p)).all
            (fun p => p.1 != x.key)) = m.all (fun p => p.1 != x.key) := by
        intro x
        rw [List.all_map]
        have hfun : ((fun p : String × ImportedBookData => p.1 != x.key) ∘
            (fun p : String × ImportedBookData => if p.1 == e.key then
              (p.1, { p.2 with highlights := p.2.highlights ++ [e.hl] }) else p)) =
            (fun p : String × ImportedBookData => p.1 != x.key) := by
          funext r
          by_cases hr : (r.1 == e.key) = true <;> simp [Function.comp, hr]
        rw [hfun]
      have hB : (m.map (fun p => if p.1 == e.key then
            (p.1, { p.2 with highlights := p.2.highlights ++ [e.hl] }) else p)).map
              (appendFrom es) = m.map (appendFrom (e :: es)) := by
        rw [List.map_map]
        apply List.map_congr_left
        intro r _
        show appendFrom es (if r.1 == e.key then
            (r.1, { r.2 with highlights := r.2.highlights ++ [e.hl] }) else r) =
          appendFrom (e :: es) r
        by_cases hr : r.1 = e.key
        · rw [if_pos (by simp [hr])]
          unfold appendFrom
          have hek : (e.key == r.1) = true := by simp [hr]
          simp [List.filter_cons, hek]
        · rw [if_neg (by simp [hr])]
          unfold appendFrom
          have hek : (e.key == r.1) = false := by
            simp
            exact fun he => hr he.symm
          simp [List.filter_cons, hek]
      have hall : (m.all (fun p => p.1 != e.key)) = false := by
        obtain ⟨p, hp, hpk⟩ := List.any_eq_true.1 hmem
        cases hx : m.all (fun p => p.1 != e.key) with
        | false => rfl
        | true =>
          exfalso
          have := List.all_eq_true.1 hx p hp
          simp at this hpk
          exact this hpk
      have hfiltc : es.filter (fun x =>
          (m.map (fun p => if p.1 == e.key then
            (p.1, { p.2 with highlights := p.2.highlights ++ [e.hl] }) else p)).all
              (fun p => p.1 != x.key)) = es.filter (fun x => m.all (fun p => p.1 != x.key)) :=
        List.filter_congr (fun x _ => hA x)
      have hrhs : (e :: es).filter (fun x => m.all (fun p => p.1 != x.key)) =
          es.filter (fun x => m.all (fun p => p.1 != x.key)) := by
        simp [List.filter_cons, hall]
      rw [hB, hfiltc, hrhs]
    · have hmemF : m.any (fun p => p.1 == e.key) = false := by
        cases hx : m.any (fun p => p.1 == e.key) with
        | false => rfl
        | true => exact absurd hx hmem
      rw [insertEntry_neg m e hmemF]
      have hnotin : ∀ p ∈ m, ¬ p.1 = e.key := by
        intro p hp he
        exact hmem (List.any_eq_true.2 ⟨p, hp, by simp [he]⟩)
      have hallT : m.all (fun p => p.1 != e.key) = true := by
        apply List.all_eq_true.2
        intro p hp
        simp
        exact hnotin p hp
      rw [List.map_append]
      have hmap : m.map (appendFrom (e :: es)) = m.map (appendFrom es) := by
        apply List.map_congr_left
        intro r hr
        unfold appendFrom
        have hek : (e.key == r.1) = false := by
          simp
          exact fun he => hnotin r hr he.symm
        simp [List.filter_cons, hek]
      have hallapp : ∀ x : ClipEntry,
          ((m ++ [((e.key, { title := e.title, author := e.author, highlights := [e.hl] }) :
              String × ImportedBookData)]).all (fun p => p.1 != x.key)) =
            (m.all (fun p => p.1 != x.key) && (e.key != x.key)) := by
        intro x
        simp [List.all_append]
      have hfilt2 : es.filter (fun x =>
          ((m ++ [((e.key, { title := e.title, author := e.author, highlights := [e.hl] }) :
              String × ImportedBookData)]).all (fun p => p.1 != x.key))) =
          es.filter (fun x => m.all (fun p => p.1 != x.key) && (e.key != x.key)) :=
        List.filter_congr (fun x _ => hallapp x)
      have hrhs : (e :: es).filter (fun x => m.all (fun p => p.1 != x.key)) =
          e :: es.filter (fun x => m.all (fun p => p.1 != x.key)) := by
        simp [List.filter_cons, hallT]
      rw [hfilt2, hrhs, canonGroupKeyed_cons]
      have habsorb : (es.filter (fun x => m.all (fun p => p.1 != x.key))).filter
          (fun x => x.key == e.key) = es.filter (fun x => x.key == e.key) := by
        rw [List.filter_filter]
        apply List.filter_congr
        intro x _
        by_cases hq : (x.key == e.key) = true
        · have hxe : x.key = e.key := by simpa using hq
          rw [hq]
          rw [show (fun p : String × ImportedBookData => p.1 != x.key) =
              (fun p : String × ImportedBookData => p.1 != e.key) from by rw [hxe]]
          simp [hallT]
        · have hq' : (x.key == e.key) = false := by simpa using hq
          simp [hq']
      have htail : (es.filter (fun x => m.all (fun p => p.1 != x.key))).filter
          (fun x => x.key != e.key) =
          es.filter (fun x => m.all (fun p => p.1 != x.key) && (e.key != x.key)) := by
        rw [List.filter_filter]
        apply List.filter_congr
        intro x _
        rw [bne_symm_str, Bool.and_comm]
      rw [habsorb, htail, hmap]
      have hhead : appendFrom es
          ((e.key, { title := e.title, author := e.author, highlights := [e.hl] }) :
            String × ImportedBookData) =
          (e.key,
           { title := e.title, author := e.author,
             highlights := e.hl :: (es.filter (fun x => x.key == e.key)).map (·.hl) }) := by
        unfold appendFrom
        simp
      simp only [List.map_cons, List.map_nil, hhead]
      simp

theorem jsToLower_append (a b : String) : jsToLower (a ++ b) = jsToLower a ++ jsToLower b := by
  unfold jsToLower
  rw [show (a ++ b).data = a.data ++ b.data from rfl, List.map_append]
  rfl

theorem entryOf_key (s : String) (e : ClipEntry) (h : entryOf s = some e) :
    e.key = jsToLower (e.title ++ "-" ++ e.author) := by
  unfold entryOf at h
  split at h
  · dsimp only at h
    split at h
    · exact absurd h (by simp)
    · have := Option.some.inj h
      subst this
      rfl
  · exact absurd h (by simp)

theorem jsToLower_dash : jsToLower "-" = "-" := by decide

/-- Claim C7: the clippings parser groups all retained entries sharing the
key `lowercase(title) + "-" + lowercase(author)` into a single parsed book,
with books in first-encounter order of their key and each book's highlights
in entry encounter order (the canonical grouping `canonGroupKeyed`); and the
key of every retained entry is the lowercased title, a dash, and the
lowercased author. -/
theorem C7_grouping (now text : String) :
    parseKindleClippings now text =
      ((canonGroupKeyed (clipEntries text)).map (·.2)).map (stampBook now) ∧
    ∀ e ∈ clipEntries text, e.key = jsToLower e.title ++ "-" ++ jsToLower e.author := by
  constructor
  · unfold parseKindleClippings clipBooks
    rw [foldl_insertEntry_eq (clipEntries text) []]
    simp only [List.map_nil, List.nil_append]
    have : (clipEntries text).filter
        (fun x => ([] : List (String × ImportedBookData)).all (fun p => p.1 != x.key)) =
        clipEntries text := by
      simp
    rw [this]
  · intro e he
    obtain ⟨s, _, hs⟩ := List.mem_filterMap.1 he
    have hk := entryOf_key s e hs
    rw [hk, show e.title ++ "-" ++ e.author = (e.title ++ "-") ++ e.author from rfl,
        jsToLower_append, jsToLower_append, jsToLower_dash]

theorem entryOf_text (s : String) (e : ClipEntry) (h : entryOf s = some e) :
    e.hl.text ≠ "" ∧ jsStartsWith (jsToLower e.hl.text) "bookmark" = false := by
  unfold entryOf at h
  split at h
  · dsimp only at h
    split at h
    · exact absurd h (by simp)
    · rename_i hcond
      have := Option.some.inj h
      subst this
      dsimp only
      simp only [Bool.or_eq_true, beq_iff_eq, not_or, Bool.not_eq_true] at hcond
      exact ⟨hcond.1, hcond.2⟩
  · exact absurd h (by simp)

theorem mem_foldl_insertEntry (es : List ClipEntry) :
    ∀ (m : List (String × ImportedBookData)) (p : String × ImportedBookData),
      p ∈ es.foldl insertEntry m → ∀ h ∈ p.2.highlights,
      (∃ e ∈ es, e.hl = h) ∨ ∃ q ∈ m, h ∈ q.2.highlights := by
  induction es with
  | nil =>
    intro m p hp h hh
    exact Or.inr ⟨p, hp, hh⟩
  | cons e es ih =>
    intro m p hp h hh
    rcases ih (insertEntry m e) p hp h hh with he | ⟨q, hq, hqh⟩
    · obtain ⟨e', he', rfl⟩ := he
      exact Or.inl ⟨e', List.mem_cons_of_mem _ he', rfl⟩
    · unfold insertEntry at hq
      split at hq
      · obtain ⟨r, hr, rfl⟩ := List.mem_map.1 hq
        by_cases hk : (r.1 == e.key) = true
        · rw [if_pos hk] at hqh
          dsimp only at hqh
          rcases List.mem_append.1 hqh with hold | hnew
          · exact Or.inr ⟨r, hr, hold⟩
          · have : h = e.hl := by simpa using hnew
            exact Or.inl ⟨e, List.mem_cons_self _ _, this.symm⟩
        · rw [if_neg hk] at hqh
          exact Or.inr ⟨r, hr, hqh⟩
      · rcases List.mem_append.1 hq with hold | hnew
        · exact Or.inr ⟨q, hold, hqh⟩
        · have hq' : q = (e.key,
              { title := e.title, author := e.author, highlights := [e.hl] }) := by
            simpa using hnew
          subst hq'
          have : h = e.hl := by simpa using hqh
          exact Or.inl ⟨e, List.mem_cons_self _ _, this.symm⟩

/-- Claim C5: entries whose body is empty or begins (case-insensitively)
with "bookmark" are discarded entirely — every highlight appearing in any
output parsed book has a non-empty text that does not start with "bookmark"
case-insensitively. -/
theorem C5_bookmark_filtering (now text : String) :
    ∀ b ∈ parseKindleClippings now text, ∀ h ∈ b.highlights,
      h.text ≠ "" ∧ jsStartsWith (jsToLower h.text) "bookmark" = false := by
  intro b hb h hh
  obtain ⟨b', hb', rfl⟩ := List.mem_map.1 hb
  obtain ⟨h', hh', rfl⟩ := List.mem_map.1 hh
  obtain ⟨p, hp, rfl⟩ := List.mem_map.1 hb'
  have := mem_foldl_insertEntry (clipEntries text) [] p hp h' hh'
  rcases this with ⟨e, he, rfl⟩ | ⟨q, hq, _⟩
  · obtain ⟨s, _, hs⟩ := List.mem_filterMap.1 he
    have := entryOf_text s e hs
    exact ⟨this.1, this.2⟩
  · exact absurd hq (List.not_mem_nil _)

theorem findFirstIdx_eq_some_iff {α : Type} {p : α → Bool} :
    ∀ {l : List α} {i : Nat},
    findFirstIdx p l = some i ↔
      ((∃ a, l.get? i = some a ∧ p a = true) ∧
       ∀ j, j < i → ∀ b, l.get? j = some b → p b = false) := by
  intro l
  induction l with
  | nil =>
    intro i
    simp [findFirstIdx]
  | cons x xs ih =>
    intro i
    simp only [findFirstIdx]
    by_cases hx : p x = true
    · rw [if_pos hx]
      cases i with
      | zero =>
        simp only [List.get?]
        constructor
        · intro _
          exact ⟨⟨x, rfl, hx⟩, fun j hj => absurd hj (Nat.not_lt_zero j)⟩
        · intro _
          trivial
      | succ k =>
        simp only [List.get?]
        constructor
        · intro h
          exact absurd h (by simp)
        · rintro ⟨_, hmin⟩
          have := hmin 0 (Nat.zero_lt_succ k) x rfl
          rw [hx] at this
          exact absurd this (by simp)
    · rw [if_neg hx]
      have hxf : p x = false := by
        cases hpx : p x with
        | false => rfl
        | true => exact absurd hpx hx
      cases i with
      | zero =>
        simp only [List.get?, Option.map_eq_some']
        constructor
        · rintro ⟨i', _, hi'⟩
          exact absurd hi'.symm (by omega)
        · rintro ⟨⟨a, ha, hpa⟩, _⟩
          have hax : a = x := by
            have := ha
            simp at this
            exact this.symm
          subst hax
          rw [hpa] at hxf
          exact absurd hxf (by simp)
      | succ k =>
        constructor
        · intro h
          obtain ⟨i', hi', hik⟩ := Option.map_eq_some'.1 h
          have hik' : i' = k := by omega
          subst hik'
          obtain ⟨⟨a, ha, hpa⟩, hmin⟩ := ih.1 hi'
          refine ⟨⟨a, by simpa using ha, hpa⟩, ?_⟩
          intro j hj b hb
          cases j with
          | zero =>
            have hbx : b = x := by
              have := hb
              simp at this
              exact this.symm
            subst hbx
            exact hxf
          | succ j' =>
            exact hmin j' (by omega) b (by simpa using hb)
        · rintro ⟨⟨a, ha, hpa⟩, hmin⟩
          have hxs : findFirstIdx p xs = some k := by
            apply ih.2
            refine ⟨⟨a, by simpa using ha, hpa⟩, ?_⟩
            intro j hj b hb
            exact hmin (j + 1) (by omega) b (by simpa using hb)
          rw [hxs]
          rfl

theorem findFirstIdx_lt_length {α : Type} {p : α → Bool} {l : List α} {i : Nat}
    (h : findFirstIdx p l = some i) : i < l.length := by
  obtain ⟨⟨a, ha, _⟩, _⟩ := findFirstIdx_eq_some_iff.1 h
  exact List.get?_eq_some.1 ha |>.choose

theorem getD_set_self {α : Type} [Inhabited α] :
    ∀ (l : List α) (i : Nat) (a : α), i < l.length → (l.set i a).getD i default = a := by
  intro l
  induction l with
  | nil => intro i a h; simp at h
  | cons x xs ih =>
    intro i a h
    cases i with
    | zero => rfl
    | succ k =>
      simp only [List.set, List.getD, List.get?]
      have := ih k a (by simpa using h)
      simpa [List.getD] using this

theorem findFirstIdx_set_congr {α : Type} [Inhabited α] {p : α → Bool} :
    ∀ (l : List α) (i : Nat) (a : α), p a = p (l.getD i default) →
      findFirstIdx p (l.set i a) = findFirstIdx p l := by
  intro l
  induction l with
  | nil => intro i a _; simp
  | cons x xs ih =>
    intro i a h
    cases i with
    | zero =>
      simp only [List.set, findFirstIdx]
      have : p a = p x := by simpa [List.getD] using h
      rw [this]
    | succ k =>
      simp only [List.set, findFirstIdx]
      have := ih k a (by simpa [List.getD] using h)
      rw [this]

theorem findMergeIdx_set_preserve (books : List Book) (i : Nat) (b' : Book) (t : String)
    (hti : b'.title = (books.getD i default).title) :
    findMergeIdx (books.set i b') t = findMergeIdx books t := by
  unfold findMergeIdx
  apply findFirstIdx_set_congr
  rw [hti]

theorem stepBook_books_matched (lookup : String → Option Book) (ids : Nat → String)
    (now : String) (st : ReconcileState) (iB : ImportedBookData) (i : Nat)
    (hi : findMergeIdx st.books iB.title = some i) :
    ∃ b' : Book, (stepBook lookup ids now st iB).books = st.books.set i b' ∧
      b'.title = (st.books.getD i default).title ∧
      b'.id = (st.books.getD i default).id := by
  unfold stepBook
  rw [hi]
  exact ⟨_, rfl, rfl, rfl⟩

/-- Claim C8: the reconciler's merge-target search selects the first stored
book whose title equals the parsed title case-insensitively, ignoring the
author: (1) the search result is characterized by case-insensitive exact
title equality alone; (2) when a match exists, changing the parsed book's
author changes nothing about the step; (3) two parsed books with the same
case-insensitive title are merged into the same existing book — after the
first is processed, the second's merge target is the same index and the same
book id. -/
theorem C8_title_only_matching :
    (∀ (books : List Book) (t : String) (i : Nat),
       findMergeIdx books t = some i ↔
         ((∃ b, books.get? i = some b ∧ jsToLower b.title = jsToLower t) ∧
          ∀ j, j < i → ∀ b, books.get? j = some b → ¬ jsToLower b.title = jsToLower t)) ∧
    (∀ (lookup : String → Option Book) (ids : Nat → String) (now : String)
       (st : ReconcileState) (iB : ImportedBookData) (a : String) (i : Nat),
       findMergeIdx st.books iB.title = some i →
       stepBook lookup ids now st { iB with author := a } = stepBook lookup ids now st iB) ∧
    (∀ (lookup : String → Option Book) (ids : Nat → String) (now : String)
       (st : ReconcileState) (iB1 iB2 : ImportedBookData) (i : Nat),
       jsToLower iB1.title = jsToLower iB2.title →
       findMergeIdx st.books iB1.title = some i →
       findMergeIdx (stepBook lookup ids now st iB1).books iB2.title = some i ∧
       ((stepBook lookup ids now st iB1).books.getD i default).id =
         (st.books.getD i default).id) := by
  refine ⟨?_, ?_, ?_⟩
  · intro books t i
    unfold findMergeIdx
    rw [findFirstIdx_eq_some_iff]
    constructor
    · rintro ⟨⟨b, hb, hpb⟩, hmin⟩
      refine ⟨⟨b, hb, by simpa using hpb⟩, ?_⟩
      intro j hj b' hb' hcontra
      have := hmin j hj b' hb'
      rw [show (jsToLower b'.title == jsToLower t) = true from by simpa using hcontra] at this
      exact absurd this (by simp)
    · rintro ⟨⟨b, hb, hpb⟩, hmin⟩
      refine ⟨⟨b, hb, by simpa using hpb⟩, ?_⟩
      intro j hj b' hb'
      have := hmin j hj b' hb'
      simpa using this
  · intro lookup ids now st iB a i hi
    unfold stepBook
    rw [show ({ iB with author := a } : ImportedBookData).title = iB.title from rfl, hi]
  · intro lookup ids now st iB1 iB2 i ht hi
    have hi2 : findMergeIdx st.books iB2.title = some i := by
      unfold findMergeIdx at hi ⊢
      rw [show (fun b : Book => jsToLower b.title == jsToLower iB2.title) =
          (fun b : Book => jsToLower b.title == jsToLower iB1.title) from by rw [ht], hi]
    have hlt : i < st.books.length := findFirstIdx_lt_length hi
    obtain ⟨b', hbooks, hbt, hbid⟩ := stepBook_books_matched lookup ids now st iB1 i hi
    rw [hbooks]
    constructor
    · rw [findMergeIdx_set_preserve st.books i b' iB2.title hbt, hi2]
    · rw [getD_set_self _ _ _ hlt, hbid]

theorem C8_witness :
    stepBook (fun _ => none) seqIds "n" ⟨[c2Book], [], 0, [], 0⟩
        { title := "t", author := "someone else", highlights := [] } =
      stepBook (fun _ => none) seqIds "n" ⟨[c2Book], [], 0, [], 0⟩
        { title := "t", author := "x", highlights := [] } :=
  C8_title_only_matching.2.1 (fun _ => none) seqIds "n" ⟨[c2Book], [], 0, [], 0⟩
    { title := "t", author := "x", highlights := [] } "someone else" 0 (by decide)

/-- Claim C9: when a parsed book has no title match and the metadata lookup
returns `none`, the reconciler synthesizes a placeholder book carrying a
freshly generated identifier and the placeholder cover and inserts it at the
front of the book list; processing continues with the remaining parsed books
(the fold steps on), and reconciliation surfaces no error — `handleBulkImport`
returns `Except.ok` whenever parsing produced at least one book. -/
theorem C9_lookup_failure_placeholder :
    (∀ (lookup : String → Option Book) (ids : Nat → String) (now : String)
       (st : ReconcileState) (iB : ImportedBookData),
       findMergeIdx st.books iB.title = none →
       lookup (iB.title ++ " " ++ iB.author) = none →
       ∃ cnt, (stepBook lookup ids now st iB).books =
         { id := ids st.ctr, title := iB.title, author := iB.author,
           coverUrl := placeholderCover iB.title, totalHighlights := cnt } :: st.books) ∧
    (∀ (lookup : String → Option Book) (ids : Nat → String) (now : String)
       (iB : ImportedBookData) (rest : List ImportedBookData)
       (books : List Book) (highlights : List Highlight),
       (iB :: rest).foldl (stepBook lookup ids now) ⟨books, highlights, 0, [], 0⟩ =
         rest.foldl (stepBook lookup ids now)
           (stepBook lookup ids now ⟨books, highlights, 0, [], 0⟩ iB)) ∧
    (∀ (htmlParser : String → List ImportedBookData) (lookup : String → Option Book)
       (ids : Nat → String) (now text : String) (books : List Book)
       (highlights : List Highlight),
       parseImportText htmlParser now text ≠ [] →
       handleBulkImport htmlParser lookup ids now text books highlights =
         Except.ok (runReconcile lookup ids now (parseImportText htmlParser now text)
           books highlights)) := by
  refine ⟨?_, ?_, ?_⟩
  · intro lookup ids now st iB hm hl
    unfold stepBook
    rw [hm]
    dsimp only
    rw [hl]
    exact ⟨_, rfl⟩
  · intro lookup ids now iB rest books highlights
    rfl
  · intro htmlParser lookup ids now text books highlights hne
    unfold handleBulkImport
    rw [if_neg ?_]
    intro hx
    apply hne
    cases hp : parseImportText htmlParser now text with
    | nil => rfl
    | cons a l => rw [hp] at hx; exact absurd hx (by simp)

theorem C9_witness :
    findMergeIdx ([] : List Book) "New Book" = none ∧
    ∃ cnt, (stepBook (fun _ => none) seqIds "n" ⟨[], [], 0, [], 0⟩
        { title := "New Book", author := "Auth", highlights := [] }).books =
      { id := seqIds 0, title := "New Book", author := "Auth",
        coverUrl := placeholderCover "New Book", totalHighlights := cnt } :: [] :=
  ⟨by decide,
   C9_lookup_failure_placeholder.1 (fun _ => none) seqIds "n" ⟨[], [], 0, [], 0⟩
     { title := "New Book", author := "Auth", highlights := [] } (by decide) rfl⟩

theorem addOne_highlights_grow (ids : Nat → String) (now : String) (bid : String) :
    ∀ (hls : List ParsedHighlight) (st : AddState),
      st.highlights <+: (hls.foldl (addOneHighlight ids now bid) st).highlights := by
  intro hls
  induction hls with
  | nil => intro st; exact List.prefix_refl _
  | cons h hs ih =>
    intro st
    rw [List.foldl_cons]
    refine List.IsPrefix.trans ?_ (ih (addOneHighlight ids now bid st h))
    unfold addOneHighlight
    by_cases hc : (st.highlights.any fun eh => eh.bookId == bid && eh.text == h.text) = true
    · rw [if_pos hc]
    · rw [if_neg hc]
      exact ⟨_, rfl⟩

theorem map_zeroCount_set :
    ∀ (l : List Book) (i : Nat) (b : Book),
      zeroCount b = zeroCount (l.getD i default) →
      (l.set i b).map zeroCount = l.map zeroCount := by
  intro l
  induction l with
  | nil => intro i b _; simp
  | cons x xs ih =>
    intro i b h
    cases i with
    | zero =>
      simp only [List.set, List.map_cons]
      rw [show zeroCount b = zeroCount x from by simpa [List.getD] using h]
    | succ k =>
      simp only [List.set, List.map_cons]
      rw [ih k b (by simpa [List.getD] using h)]

theorem stepBook_books_frame (lookup : String → Option Book) (ids : Nat → String)
    (now : String) (st : ReconcileState) (iB : ImportedBookData) :
    ∃ k, (stepBook lookup ids now st iB).books.length = k + st.books.length ∧
      (((stepBook lookup ids now st iB).books.drop k).map zeroCount =
        st.books.map zeroCount) := by
  unfold stepBook
  cases hm : findMergeIdx st.books iB.title with
  | some i =>
    dsimp only
    refine ⟨0, by simp, ?_⟩
    rw [List.drop_zero]
    exact map_zeroCount_set st.books i _ rfl
  | none =>
    dsimp only
    exact ⟨1, by simp [List.length_cons, Nat.add_comm], by simp⟩

theorem addOne_highlights_grow2 (ids : Nat → String) (now : String) (bid : String)
    (hls : List ParsedHighlight) (hs0 : List Highlight) (c0 k0 : Nat) :
    hs0 <+: (hls.foldl (addOneHighlight ids now bid) ⟨hs0, c0, k0⟩).highlights :=
  addOne_highlights_grow ids now bid hls ⟨hs0, c0, k0⟩

theorem stepBook_highlights_grow (lookup : String → Option Book) (ids : Nat → String)
    (now : String) (st : ReconcileState) (iB : ImportedBookData) :
    st.highlights <+: (stepBook lookup ids now st iB).highlights := by
  unfold stepBook
  cases hm : findMergeIdx st.books iB.title with
  | some i =>
    dsimp only
    exact addOne_highlights_grow2 ids now _ iB.highlights _ _ _
  | none =>
    dsimp only
    exact addOne_highlights_grow2 ids now _ iB.highlights _ _ _

theorem foldl_stepBook_highlights_grow (lookup : String → Option Book) (ids : Nat → String)
    (now : String) :
    ∀ (parsed : List ImportedBookData) (st : ReconcileState),
      st.highlights <+: (parsed.foldl (stepBook lookup ids now) st).highlights := by
  intro parsed
  induction parsed with
  | nil => intro st; exact List.prefix_refl _
  | cons iB rest ih =>
    intro st
    rw [List.foldl_cons]
    exact List.IsPrefix.trans (stepBook_highlights_grow lookup ids now st iB) (ih _)

theorem foldl_stepBook_books_frame (lookup : String → Option Book) (ids : Nat → String)
    (now : String) :
    ∀ (parsed : List ImportedBookData) (st : ReconcileState),
      ∃ k, (parsed.foldl (stepBook lookup ids now) st).books.length = k + st.books.length ∧
        (((parsed.foldl (stepBook lookup ids now) st).books.drop k).map zeroCount =
          st.books.map zeroCount) := by
  intro parsed
  induction parsed with
  | nil => intro st; exact ⟨0, by simp, by simp⟩
  | cons iB rest ih =>
    intro st
    rw [List.foldl_cons]
    obtain ⟨k1, hl1, hm1⟩ := stepBook_books_frame lookup ids now st iB
    obtain ⟨k2, hl2, hm2⟩ := ih (stepBook lookup ids now st iB)
    refine ⟨k2 + k1, by omega, ?_⟩
    rw [← List.drop_drop k1 k2, List.map_drop, hm2, ← List.map_drop, hm1]

/-- Claim C10: reconciliation never mutates or removes a pre-existing
highlight — the output highlight list extends the input list as a prefix —
and every pre-existing book survives as a suffix of the output book list
keeping its id, title, author and coverUrl, with only `totalHighlights`
possibly changing (the lists agree after erasing the counters). -/
theorem C10_reconcile_frame (lookup : String → Option Book) (ids : Nat → String)
    (now : String) (parsed : List ImportedBookData) (books : List Book)
    (highlights : List Highlight) :
    highlights <+: (runReconcile lookup ids now parsed books highlights).2.1 ∧
    books.length ≤ (runReconcile lookup ids now parsed books highlights).1.length ∧
    (((runReconcile lookup ids now parsed books highlights).1.drop
        ((runReconcile lookup ids now parsed books highlights).1.length - books.length)).map
          zeroCount = books.map zeroCount) := by
  unfold runReconcile
  dsimp only
  obtain ⟨k, hk, hm⟩ := foldl_stepBook_books_frame lookup ids now parsed
    ⟨books, highlights, 0, [], 0⟩
  dsimp only at hk hm
  refine ⟨?_, ?_, ?_⟩
  · exact foldl_stepBook_highlights_grow lookup ids now parsed ⟨books, highlights, 0, [], 0⟩
  · omega
  · rw [show (parsed.foldl (stepBook lookup ids now)
        ⟨books, highlights, 0, [], 0⟩).books.length - books.length = k from by omega]
    exact hm

theorem findFirstIdx_eq_none_iff {α : Type} {p : α → Bool} :
    ∀ {l : List α}, findFirstIdx p l = none ↔ ∀ a ∈ l, p a = false := by
  intro l
  induction l with
  | nil => simp [findFirstIdx]
  | cons x xs ih =>
    simp only [findFirstIdx]
    by_cases hx : p x = true
    · rw [if_pos hx]
      constructor
      · intro h; exact absurd h (by simp)
      · intro h
        have := h x (List.mem_cons_self _ _)
        rw [hx] at this
        exact absurd this (by simp)
    · have hxf : p x = false := by
        cases hpx : p x with
        | false => rfl
        | true => exact absurd hpx hx
      rw [if_neg hx]
      simp only [Option.map_eq_none', ih]
      constructor
      · intro hall a ha
        rcases List.mem_cons.1 ha with rfl | ha2
        · exact hxf
        · exact hall a ha2
      · intro hall a ha
        exact hall a (List.mem_cons_of_mem _ ha)

theorem getD_set_agree {α β : Type} [Inhabited α] (f : α → β) :
    ∀ (l : List α) (j : Nat) (a : α) (i : Nat),
      f a = f (l.getD j default) →
      f ((l.set j a).getD i default) = f (l.getD i default) := by
  intro l
  induction l with
  | nil => intro j a i _; simp
  | cons x xs ih =>
    intro j a i h
    cases j with
    | zero =>
      cases i with
      | zero => simpa [List.getD] using h
      | succ k => rfl
    | succ m =>
      cases i with
      | zero => rfl
      | succ k =>
        simp only [List.set]
        have := ih m a k (by simpa [List.getD] using h)
        simpa [List.getD] using this

theorem set_getD_eq_self {α : Type} [Inhabited α] :
    ∀ (l : List α) (i : Nat), i < l.length → l.set i (l.getD i default) = l := by
  intro l
  induction l with
  | nil => intro i h; simp at h
  | cons x xs ih =>
    intro i h
    cases i with
    | zero => rfl
    | succ k =>
      simp only [List.set, List.cons.injEq, true_and]
      have := ih k (by simpa using h)
      simpa [List.getD] using this

theorem addOne_covers (ids : Nat → String) (now : String) (bid : String) :
    ∀ (hls : List ParsedHighlight) (st : AddState), ∀ h ∈ hls,
      ∃ eh ∈ (hls.foldl (addOneHighlight ids now bid) st).highlights,
        eh.bookId = bid ∧ eh.text = h.text := by
  intro hls
  induction hls with
  | nil => intro st h hh; exact absurd hh (List.not_mem_nil _)
  | cons h0 hs ih =>
    intro st h hh
    rw [List.foldl_cons]
    rcases List.mem_cons.1 hh with rfl | hh'
    · have hpre : (addOneHighlight ids now bid st h).highlights <+:
          (hs.foldl (addOneHighlight ids now bid) (addOneHighlight ids now bid st h)).highlights :=
        addOne_highlights_grow ids now bid hs _
      unfold addOneHighlight at hpre ⊢
      by_cases hc : (st.highlights.any fun eh => eh.bookId == bid && eh.text == h.text) = true
      · rw [if_pos hc] at hpre ⊢
        obtain ⟨eh, hmem, hp⟩ := List.any_eq_true.1 hc
        refine ⟨eh, hpre.subset hmem, ?_⟩
        have := hp
        simp only [Bool.and_eq_true, beq_iff_eq] at this
        exact this
      · rw [if_neg hc] at hpre ⊢
        refine ⟨_, hpre.subset (List.mem_append_right _ (List.mem_singleton_self _)), rfl, rfl⟩
    · exact ih (addOneHighlight ids now bid st h0) h hh'

theorem addOne_noop (ids : Nat → String) (now : String) (bid : String) :
    ∀ (hls : List ParsedHighlight) (st : AddState),
      (∀ h ∈ hls, (st.highlights.any fun eh => eh.bookId == bid && eh.text == h.text) = true) →
      hls.foldl (addOneHighlight ids now bid) st = st := by
  intro hls
  induction hls with
  | nil => intro st _; rfl
  | cons h0 hs ih =>
    intro st hall
    rw [List.foldl_cons]
    have hskip : addOneHighlight ids now bid st h0 = st := by
      unfold addOneHighlight
      rw [if_pos (hall h0 (List.mem_cons_self _ _))]
    rw [hskip]
    exact ih st (fun h hh => hall h (List.mem_cons_of_mem _ hh))

theorem stepBook_highlights_matched (lookup : String → Option Book) (ids : Nat → String)
    (now : String) (st : ReconcileState) (iB : ImportedBookData) (i : Nat)
    (hi : findMergeIdx st.books iB.title = some i) :
    (stepBook lookup ids now st iB).highlights =
      (iB.highlights.foldl (addOneHighlight ids now (st.books.getD i default).id)
        ⟨st.highlights, 0, st.ctr⟩).highlights := by
  unfold stepBook
  rw [hi]

theorem stepBook_created (lookup : String → Option Book) (ids : Nat → String)
    (now : String) (st : ReconcileState) (iB : ImportedBookData)
    (hm : findMergeIdx st.books iB.title = none)
    (hpres : ∀ b, lookup (iB.title ++ " " ++ iB.author) = some b →
      jsToLower b.title = jsToLower iB.title) :
    ∃ N c0, (stepBook lookup ids now st iB).books = N :: st.books ∧
      jsToLower N.title = jsToLower iB.title ∧
      (stepBook lookup ids now st iB).highlights =
        (iB.highlights.foldl (addOneHighlight ids now N.id)
          ⟨st.highlights, 0, c0⟩).highlights := by
  unfold stepBook
  rw [hm]
  dsimp only
  cases hl : lookup (iB.title ++ " " ++ iB.author) with
  | some m => exact ⟨_, st.ctr, rfl, hpres m hl, rfl⟩
  | none => exact ⟨_, st.ctr + 1, rfl, rfl, rfl⟩

theorem stepBook_preserves_covered (lookup : String → Option Book) (ids : Nat → String)
    (now : String) (st : ReconcileState) (iB2 : ImportedBookData) (iB : ImportedBookData)
    (hpres : ∀ b, lookup (iB2.title ++ " " ++ iB2.author) = some b →
      jsToLower b.title = jsToLower iB2.title)
    (hcov : CoveredBook st.books st.highlights iB) :
    CoveredBook (stepBook lookup ids now st iB2).books
      (stepBook lookup ids now st iB2).highlights iB := by
  obtain ⟨i, b, hfind, hbeq, hlen, hcv⟩ := hcov
  have hpre : st.highlights <+: (stepBook lookup ids now st iB2).highlights :=
    stepBook_highlights_grow lookup ids now st iB2
  cases hm : findMergeIdx st.books iB2.title with
  | some j =>
    obtain ⟨b', hbooks, hbt, hbid⟩ := stepBook_books_matched lookup ids now st iB2 j hm
    refine ⟨i, (stepBook lookup ids now st iB2).books.getD i default, ?_, rfl, ?_, ?_⟩
    · rw [hbooks]
      exact (findMergeIdx_set_preserve st.books j b' iB.title hbt).trans hfind
    · rw [hbooks]
      simpa [List.length_set] using hlen
    · intro h hh
      obtain ⟨eh, hmem, hid, htext⟩ := hcv h hh
      refine ⟨eh, hpre.subset hmem, ?_, htext⟩
      rw [hbooks, getD_set_agree Book.id st.books j b' i hbid, hbeq]
      exact hid
  | none =>
    obtain ⟨N, c0, hbooks, hNt, _⟩ := stepBook_created lookup ids now st iB2 hm hpres
    have hpN : (jsToLower N.title == jsToLower iB.title) = false := by
      cases hx : (jsToLower N.title == jsToLower iB.title) with
      | false => rfl
      | true =>
        exfalso
        have htt : jsToLower iB2.title = jsToLower iB.title := by
          have hNx : jsToLower N.title = jsToLower iB.title := by simpa using hx
          rw [hNt] at hNx
          exact hNx
        obtain ⟨⟨a, ha, hpa⟩, _⟩ := findFirstIdx_eq_some_iff.1 hfind
        have hamem : a ∈ st.books := List.get?_mem ha
        have := findFirstIdx_eq_none_iff.1 hm a hamem
        rw [show (jsToLower a.title == jsToLower iB2.title) =
            (jsToLower a.title == jsToLower iB.title) from by rw [htt]] at this
        rw [hpa] at this
        exact absurd this (by simp)
    refine ⟨i + 1, (stepBook lookup ids now st iB2).books.getD (i + 1) default, ?_, rfl, ?_, ?_⟩
    · rw [hbooks]
      unfold findMergeIdx at hfind ⊢
      simp only [findFirstIdx, hpN, Bool.false_eq_true, if_false, hfind]
      rfl
    · rw [hbooks]
      simpa using Nat.succ_lt_succ hlen
    · intro h hh
      obtain ⟨eh, hmem, hid, htext⟩ := hcv h hh
      refine ⟨eh, hpre.subset hmem, ?_, htext⟩
      rw [hbooks]
      have hgd : ((N :: st.books).getD (i + 1) default) = st.books.getD i default := rfl
      rw [hgd, hbeq]
      exact hid

theorem stepBook_establishes_covered (lookup : String → Option Book) (ids : Nat → String)
    (now : String) (st : ReconcileState) (iB : ImportedBookData)
    (hpres : ∀ b, lookup (iB.title ++ " " ++ iB.author) = some b →
      jsToLower b.title = jsToLower iB.title) :
    CoveredBook (stepBook lookup ids now st iB).books
      (stepBook lookup ids now st iB).highlights iB := by
  cases hm : findMergeIdx st.books iB.title with
  | some i =>
    have hlt : i < st.books.length := findFirstIdx_lt_length hm
    obtain ⟨b', hbooks, hbt, hbid⟩ := stepBook_books_matched lookup ids now st iB i hm
    have hhl := stepBook_highlights_matched lookup ids now st iB i hm
    refine ⟨i, (stepBook lookup ids now st iB).books.getD i default, ?_, rfl, ?_, ?_⟩
    · rw [hbooks]
      exact (findMergeIdx_set_preserve st.books i b' iB.title hbt).trans hm
    · rw [hbooks]
      simpa [List.length_set] using hlt
    · intro h hh
      obtain ⟨eh, hmem, hid, htext⟩ := addOne_covers ids now (st.books.getD i default).id
        iB.highlights ⟨st.highlights, 0, st.ctr⟩ h hh
      rw [← hhl] at hmem
      refine ⟨eh, hmem, ?_, htext⟩
      rw [hbooks, getD_set_agree Book.id st.books i b' i hbid]
      exact hid
  | none =>
    obtain ⟨N, c0, hbooks, hNt, hhl⟩ := stepBook_created lookup ids now st iB hm hpres
    refine ⟨0, (stepBook lookup ids now st iB).books.getD 0 default, ?_, rfl, ?_, ?_⟩
    · rw [hbooks]
      unfold findMergeIdx
      have hpN : (jsToLower N.title == jsToLower iB.title) = true := by simpa using hNt
      simp [findFirstIdx, hpN]
    · rw [hbooks]
      simp
    · intro h hh
      obtain ⟨eh, hmem, hid, htext⟩ := addOne_covers ids now N.id
        iB.highlights ⟨st.highlights, 0, c0⟩ h hh
      rw [← hhl] at hmem
      refine ⟨eh, hmem, ?_, htext⟩
      rw [hbooks]
      have hgd : ((N :: st.books).getD 0 default) = N := rfl
      rw [hgd]
      exact hid

theorem stepBook_noop_of_covered (lookup : String → Option Book) (ids : Nat → String)
    (now : String) (st : ReconcileState) (iB : ImportedBookData)
    (hcov : CoveredBook st.books st.highlights iB) :
    stepBook lookup ids now st iB = st := by
  obtain ⟨i, b, hfind, hbeq, hlen, hcv⟩ := hcov
  have hall : ∀ h ∈ iB.highlights,
      (st.highlights.any fun eh => eh.bookId == (st.books.getD i default).id &&
        eh.text == h.text) = true := by
    intro h hh
    obtain ⟨eh, hmem, hid, htext⟩ := hcv h hh
    apply List.any_eq_true.2
    refine ⟨eh, hmem, ?_⟩
    rw [hbeq]
    simp [hid, htext]
  have hnoop := addOne_noop ids now (st.books.getD i default).id iB.highlights
    ⟨st.highlights, 0, st.ctr⟩ hall
  unfold stepBook
  rw [hfind]
  dsimp only
  rw [hnoop]
  dsimp only
  rw [Nat.add_zero, Nat.add_zero]
  rw [show ({ (st.books.getD i default) with
      totalHighlights := (st.books.getD i default).totalHighlights } : Book) =
    st.books.getD i default from rfl]
  rw [set_getD_eq_self st.books i hlen]
  rw [if_neg (by simp)]

theorem foldl_preserves_covered (lookup : String → Option Book) (ids : Nat → String)
    (now : String) :
    ∀ (parsed : List ImportedBookData) (st : ReconcileState) (iB : ImportedBookData),
      (∀ iB2 ∈ parsed, ∀ b, lookup (iB2.title ++ " " ++ iB2.author) = some b →
        jsToLower b.title = jsToLower iB2.title) →
      CoveredBook st.books st.highlights iB →
      CoveredBook (parsed.foldl (stepBook lookup ids now) st).books
        (parsed.foldl (stepBook lookup ids now) st).highlights iB := by
  intro parsed
  induction parsed with
  | nil => intro st iB _ hcov; exact hcov
  | cons iB2 rest ih =>
    intro st iB htp hcov
    rw [List.foldl_cons]
    exact ih (stepBook lookup ids now st iB2) iB
      (fun x hx => htp x (List.mem_cons_of_mem _ hx))
      (stepBook_preserves_covered lookup ids now st iB2 iB
        (htp iB2 (List.mem_cons_self _ _)) hcov)

theorem foldl_establishes_covered (lookup : String → Option Book) (ids : Nat → String)
    (now : String) :
    ∀ (parsed : List ImportedBookData) (st : ReconcileState),
      (∀ iB2 ∈ parsed, ∀ b, lookup (iB2.title ++ " " ++ iB2.author) = some b →
        jsToLower b.title = jsToLower iB2.title) →
      ∀ iB ∈ parsed,
        CoveredBook (parsed.foldl (stepBook lookup ids now) st).books
          (parsed.foldl (stepBook lookup ids now) st).highlights iB := by
  intro parsed
  induction parsed with
  | nil => intro st _ iB hmem; exact absurd hmem (List.not_mem_nil _)
  | cons iB2 rest ih =>
    intro st htp iB hmem
    rw [List.foldl_cons]
    rcases List.mem_cons.1 hmem with rfl | hmem'
    · exact foldl_preserves_covered lookup ids now rest (stepBook lookup ids now st iB) iB
        (fun x hx => htp x (List.mem_cons_of_mem _ hx))
        (stepBook_establishes_covered lookup ids now st iB (htp iB (List.mem_cons_self _ _)))
    · exact ih (stepBook lookup ids now st iB2)
        (fun x hx => htp x (List.mem_cons_of_mem _ hx)) iB hmem'

theorem foldl_noop_of_covered (lookup : String → Option Book) (ids : Nat → String)
    (now : String) :
    ∀ (parsed : List ImportedBookData) (st : ReconcileState),
      (∀ iB ∈ parsed, CoveredBook st.books st.highlights iB) →
      parsed.foldl (stepBook lookup ids now) st = st := by
  intro parsed
  induction parsed with
  | nil => intro st _; rfl
  | cons iB rest ih =>
    intro st hall
    rw [List.foldl_cons, stepBook_noop_of_covered lookup ids now st iB
      (hall iB (List.mem_cons_self _ _))]
    exact ih st (fun x hx => hall x (List.mem_cons_of_mem _ hx))

theorem parseImportText_shape (html : String → List ImportedBookData) (now1 now2 text : String) :
    ∀ iB2 ∈ parseImportText html now2 text, ∃ iB1 ∈ parseImportText html now1 text,
      iB1.title = iB2.title ∧ iB1.highlights.map (·.text) = iB2.highlights.map (·.text) := by
  intro iB2 h2
  unfold parseImportText at h2 ⊢
  by_cases hsep : jsIncludes (jsTrim text) "==========" = true
  · rw [if_pos hsep] at h2 ⊢
    unfold parseKindleClippings at h2 ⊢
    obtain ⟨b, hb, rfl⟩ := List.mem_map.1 h2
    refine ⟨stampBook now1 b, List.mem_map_of_mem _ hb, rfl, ?_⟩
    unfold stampBook stampHighlight
    simp [List.map_map, Function.comp]
  · rw [if_neg hsep] at h2 ⊢
    by_cases hh : (jsStartsWith (jsTrim text) "<" || jsIncludes (jsTrim text) "<!DOCTYPE html>"
        || jsIncludes (jsTrim text) "<html>") = true
    · rw [if_pos hh] at h2 ⊢
      exact ⟨iB2, h2, rfl, rfl⟩
    · rw [if_neg hh] at h2
      exact absurd h2 (List.not_mem_nil _)

theorem parseImportText_length (html : String → List ImportedBookData) (now1 now2 text : String) :
    (parseImportText html now2 text).length = (parseImportText html now1 text).length := by
  unfold parseImportText
  by_cases hsep : jsIncludes (jsTrim text) "==========" = true
  · rw [if_pos hsep, if_pos hsep]
    unfold parseKindleClippings
    simp
  · rw [if_neg hsep, if_neg hsep]

theorem covered_of_same_shape (books : List Book) (hs : List Highlight)
    (iB1 iB2 : ImportedBookData) (ht : iB1.title = iB2.title)
    (htx : iB1.highlights.map (·.text) = iB2.highlights.map (·.text))
    (h : CoveredBook books hs iB1) : CoveredBook books hs iB2 := by
  obtain ⟨i, b, hfind, hbeq, hlen, hcv⟩ := h
  refine ⟨i, b, by rw [← ht]; exact hfind, hbeq, hlen, ?_⟩
  intro h2 hh2
  have hmem2 : h2.text ∈ iB2.highlights.map (·.text) := List.mem_map_of_mem _ hh2
  rw [← htx] at hmem2
  obtain ⟨hx1, hh1, htext⟩ := List.mem_map.1 hmem2
  obtain ⟨eh, hmem, hid, ht1⟩ := hcv hx1 hh1
  exact ⟨eh, hmem, hid, by rw [ht1, htext]⟩

/-- Claim C1 as amended: importing the same text twice is idempotent
provided every successful metadata lookup during the first run returns a book
whose title equals the queried parsed book's title case-insensitively (in
particular, when the lookup always fails).  If the first run succeeds with
output library `b1`/`h1`, the second run — with any lookup, identifier supply
and timestamp — succeeds, leaves the book and highlight lists exactly equal
to `b1`/`h1`, and reports `totalHighlightsAdded = 0` with an empty `updates`
list. -/
theorem C1_idempotent_under_title_preserving_lookup
    (html : String → List ImportedBookData) (lookup1 lookup2 : String → Option Book)
    (ids1 ids2 : Nat → String) (now1 now2 : String) (text : String)
    (books0 : List Book) (hs0 : List Highlight)
    (b1 : List Book) (h1 : List Highlight) (s1 : ImportSummary)
    (hrun1 : handleBulkImport html lookup1 ids1 now1 text books0 hs0 = Except.ok (b1, h1, s1))
    (hTP : TitlePreserving lookup1 (parseImportText html now1 text)) :
    handleBulkImport html lookup2 ids2 now2 text b1 h1 =
      Except.ok (b1, h1,
        { totalBooksProcessed := (parseImportText html now2 text).length,
          totalHighlightsAdded := 0, updates := [] }) := by
  unfold handleBulkImport at hrun1
  by_cases hp1 : (parseImportText html now1 text).isEmpty = true
  · rw [if_pos hp1] at hrun1
    exact absurd hrun1 (by simp)
  · rw [if_neg hp1] at hrun1
    have hok : runReconcile lookup1 ids1 now1 (parseImportText html now1 text) books0 hs0 =
        (b1, h1, s1) := by
      have := hrun1
      simp only [Except.ok.injEq] at this
      exact this
    have hbooks1 : ((parseImportText html now1 text).foldl (stepBook lookup1 ids1 now1)
        ⟨books0, hs0, 0, [], 0⟩).books = b1 := congrArg Prod.fst hok
    have hhl1 : ((parseImportText html now1 text).foldl (stepBook lookup1 ids1 now1)
        ⟨books0, hs0, 0, [], 0⟩).highlights = h1 := congrArg (fun p => p.2.1) hok
    have hcov2 : ∀ iB2 ∈ parseImportText html now2 text, CoveredBook b1 h1 iB2 := by
      intro iB2 h2
      obtain ⟨iB1, h1mem, ht, htx⟩ := parseImportText_shape html now1 now2 text iB2 h2
      have hc1 := foldl_establishes_covered lookup1 ids1 now1 (parseImportText html now1 text)
        ⟨books0, hs0, 0, [], 0⟩ hTP iB1 h1mem
      rw [hbooks1, hhl1] at hc1
      exact covered_of_same_shape b1 h1 iB1 iB2 ht htx hc1
    have hp2 : ¬ (parseImportText html now2 text).isEmpty = true := by
      intro hx
      apply hp1
      have hlen := parseImportText_length html now1 now2 text
      have h20 : (parseImportText html now2 text).length = 0 := by
        rw [List.isEmpty_iff] at hx
        rw [hx]
        rfl
      rw [h20] at hlen
      rw [List.isEmpty_iff]
      exact List.length_eq_zero.1 hlen.symm
    unfold handleBulkImport
    rw [if_neg hp2]
    have hnoop := foldl_noop_of_covered lookup2 ids2 now2 (parseImportText html now2 text)
      ⟨b1, h1, 0, [], 0⟩ (fun iB hm => hcov2 iB hm)
    unfold runReconcile
    rw [hnoop]

/-- Claim C2 (code bug): the invariant "`totalHighlights` equals the number of
persisted highlights with this book's id" holds before deleting a highlight
but is broken by the highlight-deletion operation, which removes the stored
highlight without decrementing the counter (`App.tsx` lines 90‑95 and 991). -/
theorem C2_delete_highlight_breaks_invariant :
    countsConsistent [c2Book] [c2Highlight] ∧
    ¬ countsConsistent (deleteHighlightOp "h1" [c2Book] [c2Highlight]).1
        (deleteHighlightOp "h1" [c2Book] [c2Highlight]).2 := by
  unfold countsConsistent
  constructor
  · decide
  · decide

/-- Claim C3: parsing the two-entry Moby Dick clippings text and reconciling
against an empty library (with a failing metadata lookup) produces exactly one
book titled "Moby Dick" by "Herman Melville" with `totalHighlights = 2` and
the summary `{ totalBooksProcessed := 1, totalHighlightsAdded := 2,`
`updates := [{Moby Dick, 2}] }`. -/
theorem C3_end_to_end :
    handleBulkImport (fun _ => []) (fun _ => none) seqIds "now" mobyText [] [] =
      Except.ok (mobyBooks1, mobyHls1, mobySummary1) := by
  rfl

/-- Claim C6: a trimmed input with no ten-equals separator that does not start
with `<` and contains no HTML document marker makes `parseImportText` return
the empty list (no exception is possible — the model is a total function);
and any input containing the separator is dispatched to the clippings parser,
HTML markers notwithstanding. -/
theorem C6_dispatch (htmlParser : String → List ImportedBookData) (now text : String) :
    ((jsIncludes (jsTrim text) "==========" = false ∧ jsStartsWith (jsTrim text) "<" = false ∧
      jsIncludes (jsTrim text) "<!DOCTYPE html>" = false ∧
      jsIncludes (jsTrim text) "<html>" = false) →
      parseImportText htmlParser now text = []) ∧
    (jsIncludes (jsTrim text) "==========" = true →
      parseImportText htmlParser now text = parseKindleClippings now (jsTrim text)) := by
  constructor
  · rintro ⟨h1, h2, h3, h4⟩
    simp [parseImportText, h1, h2, h3, h4]
  · intro h1
    simp [parseImportText, h1]

/-- Witness for C6 at the concrete inputs `"just some plain text"` (returns
`[]` even though the HTML collaborator would return a book) and
`"a==========b<html>"` (dispatched to the clippings parser despite the HTML
marker). -/
theorem C6_witness :
    parseImportText (fun _ => [{ title := "H", author := "H", highlights := [] }]) "n"
        "just some plain text" = [] ∧
    parseImportText (fun _ => [{ title := "H", author := "H", highlights := [] }]) "n"
        "a==========b<html>" = parseKindleClippings "n" (jsTrim "a==========b<html>") :=
  ⟨(C6_dispatch _ _ _).1 ⟨by decide, by decide, by decide, by decide⟩,
   (C6_dispatch _ _ _).2 (by decide)⟩

/-- Counterexample to claim C4 as stated: for the raw author field
`"A, B, C"` (two commas), splitting at the first comma and reordering would
give `"B, C A"`, but the parser keeps the raw string unchanged, because it
splits on every comma and only reorders when exactly two parts result. -/
theorem C4_counterexample :
    parseTitleAuthor "X (A, B, C)" = ("X", "A, B, C") ∧
    firstCommaReorder "A, B, C" = "B, C A" ∧
    normalizeAuthor "A, B, C" ≠ firstCommaReorder "A, B, C" := by
  refine ⟨by decide, by decide, by decide⟩

/-- Witness for C5: the highlight `"hello"` survives parsing, and the theorem
instantiated at it yields that its text is non-empty and does not begin with
"bookmark". -/
theorem C5_witness :
    ("hello" : String) ≠ "" ∧ jsStartsWith (jsToLower "hello") "bookmark" = false := by
  have hb :
      ({ title := "B", author := "a",
         highlights := [{ text := "hello", page := none, createdAt := "n" }] } :
        ImportedBookData) ∈
        parseKindleClippings "n" "B (a)\n- m\n\nhello\n==========" := by decide
  have hh :
      ({ text := "hello", page := none, createdAt := "n" } : ParsedHighlight) ∈
        ({ title := "B", author := "a",
           highlights := [{ text := "hello", page := none, createdAt := "n" }] } :
          ImportedBookData).highlights := by decide
  exact C5_bookmark_filtering "n" "B (a)\n- m\n\nhello\n==========" _ hb _ hh

/-- Witness for C7 at the Moby Dick text: the canonical-grouping equation at a
concrete input, and the key formula at the concrete retained entry. -/
theorem C7_witness :
    parseKindleClippings "n" mobyText =
      ((canonGroupKeyed (clipEntries mobyText)).map (·.2)).map (stampBook "n") ∧
    ({ key := "moby dick-herman melville", title := "Moby Dick", author := "Herman Melville",
       hl := { text := "Call me Ishmael.", page := some "10", createdAt := "" } } :
        ClipEntry).key =
      jsToLower "Moby Dick" ++ "-" ++ jsToLower "Herman Melville" := by
  refine ⟨(C7_grouping "n" mobyText).1, ?_⟩
  exact (C7_grouping "n" mobyText).2 _ (by decide)

/-- Counterexample to claim C1 as stated: with the deterministic metadata
lookup `cexLookup` — which answers the query for `("A", "x")` with a book
titled `"Z"` — importing `cexText` into an empty library and then importing
the same text a second time against the resulting library yields
`totalHighlightsAdded = 1` on the second run (not 0) and the highlight list
grows from 2 to 3 entries: the differently-titled metadata book cannot be
found by the title-only merge search, and a same-titled placeholder created
for the second parsed book shadows it. -/
theorem C1_counterexample :
    (handleBulkImport (fun _ => []) cexLookup cexIds "n1" cexText [] [] =
      Except.ok (cexBooks1, cexHls1,
        { totalBooksProcessed := 2, totalHighlightsAdded := 2,
          updates := [{ title := "A", newCount := 1 }, { title := "A", newCount := 1 }] })) ∧
    cexHls1.length = 2 ∧
    ((handleBulkImport (fun _ => []) cexLookup cexIds "n2" cexText cexBooks1 cexHls1).toOption.map
      (fun r => (r.2.2.totalHighlightsAdded, r.2.1.length))) = some (1, 3) := by
  refine ⟨by rfl, by rfl, by rfl⟩

/-- Witness for the amended C1 at a concrete run: re-importing the Moby Dick
text against the library produced by its first import (metadata lookup always
failing) yields `totalHighlightsAdded = 0`, an empty `updates` list, and the
unchanged book and highlight lists. -/
theorem C1_witness :
    handleBulkImport (fun _ => []) (fun _ => none) cexIds "t2" mobyText mobyBooks1 mobyHls1 =
      Except.ok (mobyBooks1, mobyHls1,
        { totalBooksProcessed := (parseImportText (fun _ => []) "t2" mobyText).length,
          totalHighlightsAdded := 0, updates := [] }) :=
  C1_idempotent_under_title_preserving_lookup (fun _ => []) (fun _ => none) (fun _ => none)
    seqIds cexIds "now" "t2" mobyText [] [] mobyBooks1 mobyHls1 mobySummary1
    (by rfl) (by intro iB _ b hb; exact absurd hb (by simp))

end AuthorApp
